import Mathlib

/-
  Verification development for the CTerminal shell (src/main.cpp).

  The C++ source is shallowly embedded: strings are `List Char` / `String`,
  the global alias table and history buffer become an explicit `ShellState`,
  and the `double` arithmetic of the calculator is embedded as exact
  fractions extended with IEEE-style infinities and NaN (exact on inputs
  where no rounding or overflow occurs, which covers all claims below).
-/

/-- The double-quote character (written via its code point so that quote
characters never appear inside literals). -/
def DQ : Char := Char.ofNat 34

/-- The single-quote character. -/
def SQ : Char := Char.ofNat 39

/-- The horizontal-tab character. -/
def TAB : Char := Char.ofNat 9

/-- The newline character. -/
def NL : Char := Char.ofNat 10

/-- C-locale `isspace`: space, tab, newline, vertical tab, form feed,
carriage return.  This is the whitespace class used by
`std::istringstream::operator>>` in `split_args` (src/main.cpp:103-123). -/
def isWhite (c : Char) : Bool :=
  c == ' ' || c == TAB || c == NL || c == Char.ofNat 11 ||
    c == Char.ofNat 12 || c == Char.ofNat 13

/-- Accumulating word splitter: models the repeated `iss >> token` reads of
`split_args` (src/main.cpp:107).  `acc` is the partially read token. -/
def wordsAux : List Char → List Char → List (List Char)
  | acc, [] => if acc.isEmpty then [] else [acc]
  | acc, c :: cs =>
    if isWhite c then
      if acc.isEmpty then wordsAux [] cs else acc :: wordsAux [] cs
    else wordsAux (acc ++ [c]) cs

/-- The whitespace-delimited words of a line, as extracted by
`istringstream` in `split_args`. -/
def words (s : List Char) : List (List Char) := wordsAux [] s

/-- The opening-quote test of `split_args` (src/main.cpp:108-109): the token
begins with a quote character and does not end with that same character. -/
def isOpener (t : List Char) : Bool :=
  match t.head?, t.getLast? with
  | some f, some b => (f == DQ && b != DQ) || (f == SQ && b != SQ)
  | _, _ => false

/-- The quote stripping of `split_args` (src/main.cpp:117-119): a token of
length at least two whose two ends are the same quote character loses
exactly one character at each end (`substr(1, size-2)`). -/
def stripQuotes (t : List Char) : List Char :=
  match t.head?, t.getLast? with
  | some f, some b =>
    if t.length ≥ 2 && ((f == DQ && b == DQ) || (f == SQ && b == SQ)) then
      (t.drop 1).dropLast
    else t
  | _, _ => t

/-- The token-level pass of `split_args` (src/main.cpp:107-121) over the
word list.  `none` means no absorption in progress; `some (q, acc)` means
a token opened with quote `q` is absorbing following words (the inner
`while (iss >> rest)` loop, src/main.cpp:112-115). -/
def scanTokens : Option (Char × List Char) → List (List Char) → List (List Char)
  | none, [] => []
  | some (_, acc), [] => [stripQuotes acc]
  | none, t :: rest =>
    if isOpener t then scanTokens (some (t.headD ' ', t)) rest
    else stripQuotes t :: scanTokens none rest
  | some (q, acc), r :: rest =>
    let acc' := acc ++ ' ' :: r
    if !r.isEmpty && r.getLast? == some q then
      stripQuotes acc' :: scanTokens none rest
    else scanTokens (some (q, acc')) rest

/-- Embeds `split_args` (src/main.cpp:103-123) on character lists. -/
def splitArgsL (s : List Char) : List (List Char) := scanTokens none (words s)

/-- Embeds `split_args` (src/main.cpp:103-123): tokenize one input line. -/
def split_args (s : String) : List String :=
  (splitArgsL s.data).map (fun l => ⟨l⟩)

/-- Insert-or-overwrite into the alias table, modelling
`alias_map[name] = cmd` on the `std::map` (src/main.cpp:606).  Only the
induced finite map (lookup) matters to the REPL. -/
def mapInsert : List (String × String) → String → String → List (String × String)
  | [], k, v => [(k, v)]
  | (k', v') :: rest, k, v =>
    if k' = k then (k, v) :: rest else (k', v') :: mapInsert rest k v

/-- Erase a key from the alias table, modelling `alias_map.erase`
(src/main.cpp:614). -/
def mapErase : List (String × String) → String → List (String × String)
  | [], _ => []
  | (k', v') :: rest, k => if k' = k then rest else (k', v') :: mapErase rest k

/-- The session-local mutable state of the REPL: the alias table
(`alias_map`, src/main.cpp:45) and the history buffer (`history_buf`,
src/main.cpp:44).  Bookmarks and the working directory are not needed by
any claim. -/
structure ShellState where
  aliases : List (String × String)
  history : List String
deriving DecidableEq

/-- Embeds `substitute_aliases` (src/main.cpp:857-869): tokenize the line; if the
first token is an alias key, replace it by the alias value, keeping the
substring of the original line strictly after the first space-or-tab
character (`line.find_first_of(" \t")`) when the line has more than one
token. -/
def substitute_aliases (table : List (String × String)) (line : String) : String :=
  match split_args line with
  | [] => line
  | a0 :: restArgs =>
    match table.lookup a0 with
    | none => line
    | some rep =>
      let rest : List Char :=
        if restArgs.isEmpty then []
        else
          match line.data.findIdx? (fun c => c == ' ' || c == TAB) with
          | some i => line.data.drop (i + 1)
          | none => []
      ⟨rep.data ++ (if rest.isEmpty then [] else ' ' :: rest)⟩

/-- The quote stripping of `cmd_alias` of the replacement text
(src/main.cpp:604-605): identical test to the tokenizer's. -/
def aliasStrip (v : List Char) : List Char :=
  match v.head?, v.getLast? with
  | some f, some b =>
    if v.length ≥ 2 && ((f == DQ && b == DQ) || (f == SQ && b == SQ)) then
      (v.drop 1).dropLast
    else v
  | _, _ => v

/-- Embeds `cmd_alias` (src/main.cpp:597-608): parse `name=command` out of the
second token only, strip surrounding quotes from the value, store it.
Console colour codes are dropped from modelled output; stderr diagnostics
are not modelled. -/
def cmd_alias (st : ShellState) (args : List String) : ShellState × List String :=
  match args with
  | _ :: s :: _ =>
    match s.data.findIdx? (fun c => c == '=') with
    | none => (st, [])
    | some pos =>
      let name : String := ⟨s.data.take pos⟩
      let value : String := ⟨aliasStrip (s.data.drop (pos + 1))⟩
      ({ st with aliases := mapInsert st.aliases name value },
       ["alias " ++ name ++ " -> " ++ value])
  | _ => (st, [])

/-- Embeds `cmd_unalias` (src/main.cpp:610-616). -/
def cmd_unalias (st : ShellState) (args : List String) : ShellState × List String :=
  match args with
  | _ :: n :: _ =>
    match st.aliases.lookup n with
    | none => (st, [])
    | some _ => ({ st with aliases := mapErase st.aliases n }, ["unalias: removed"])
  | _ => (st, [])

/-- The lines printed by `history` (src/main.cpp:499):
`i+1 << "  " << history_buf[i]`. -/
def historyLines (h : List String) : List String :=
  h.enum.map (fun p => toString (p.1 + 1) ++ "  " ++ p.2)

/-- Embeds `cmd_history` (src/main.cpp:497-500): `history -c` clears the buffer,
otherwise list it with 1-based indices. -/
def cmd_history (st : ShellState) (args : List String) : ShellState × List String :=
  match args with
  | _ :: flag :: _ =>
    if flag = "-c" then ({ st with history := [] }, ["history cleared"])
    else (st, historyLines st.history)
  | _ => (st, historyLines st.history)

/-- The fixed command names of the dispatch chain (src/main.cpp:903-960). -/
def builtinNames : List String :=
  ["exit", "quit", "help", "ls", "pwd", "cd", "cat", "edit", "mkdir", "rm",
   "rmdir", "touch", "cp", "mv", "find", "tree", "ps", "df", "whoami",
   "date", "clear", "echo", "grep", "wc", "head", "tail", "chmod", "ln",
   "du", "sort", "uniq", "history", "which", "open", "env", "setenv",
   "stat", "count", "alias", "unalias", "aliases", "uptime", "ping",
   "hash", "compress", "extract", "calc", "random", "bookmark",
   "bookmarks", "unbookmark", "goto", "replace", "top", "net", "notify"]

/-- What the dispatcher did with a line: stop the loop, run a built-in, or
hand the whole line to `popen` (src/main.cpp:961-967). -/
inductive ReplAction where
  | exit
  | builtin (name : String)
  | external (line : String)
deriving DecidableEq

/-- Effect of dispatching an already-substituted line on the shell state,
together with the stdout lines of the modelled commands (`echo`,
`history`, `alias`, `unalias`).  The remaining built-ins touch neither the
alias table nor the history buffer (checked against src/main.cpp: the only
writers of `history_buf` are src/main.cpp:498 and 897, the only writers of
`alias_map` are src/main.cpp:606 and 614); their stdout is not modelled. -/
def dispatch (st : ShellState) (args : List String) : ShellState × List String :=
  match args with
  | [] => (st, [])
  | cmd :: _ =>
    if cmd = "exit" ∨ cmd = "quit" then (st, [])
    else if cmd = "echo" then (st, [String.intercalate " " args.tail])
    else if cmd = "history" then cmd_history st args
    else if cmd = "alias" then cmd_alias st args
    else if cmd = "unalias" then cmd_unalias st args
    else (st, [])

/-- Result of one iteration of the REPL body on one input line. -/
structure StepResult where
  state : ShellState
  out : List String
  action : Option ReplAction
deriving DecidableEq

/-- One iteration of the main loop (src/main.cpp:894-967): skip empty
lines; substitute aliases once; append the substituted line to the
history; tokenize; skip lines with no tokens; dispatch on the first
token, falling back to the external interpreter for unknown names. -/
def repl_step (st : ShellState) (line : String) : StepResult :=
  if line = "" then ⟨st, [], none⟩
  else
    let line' := substitute_aliases st.aliases line
    let st1 : ShellState := ⟨st.aliases, st.history ++ [line']⟩
    match split_args line' with
    | [] => ⟨st1, [], none⟩
    | cmd :: rest =>
      let act : ReplAction :=
        if cmd = "exit" ∨ cmd = "quit" then ReplAction.exit
        else if builtinNames.contains cmd then ReplAction.builtin cmd
        else ReplAction.external line'
      let r := dispatch st1 (cmd :: rest)
      ⟨r.1, r.2, some act⟩

/-- Run the REPL over a list of input lines, stopping after an
`exit`/`quit` line as the main loop does. -/
def repl_run (st : ShellState) : List String → ShellState × List String
  | [] => (st, [])
  | l :: ls =>
    let r := repl_step st l
    if r.action = some ReplAction.exit then (r.state, r.out)
    else
      let rec' := repl_run r.state ls
      (rec'.1, r.out ++ rec'.2)

/-- Exact fractions over `Int`, normalized (positive denominator, lowest
terms) after every operation so that kernel evaluation works.  They model
the finite values of the C `double` arithmetic in `cmd_calc`; on inputs
where no rounding or overflow occurs — which covers every claim below —
the two agree exactly. -/
structure Frac where
  n : Int
  d : Int
deriving DecidableEq

/-- Normalize: move the sign to the numerator and divide out the gcd. -/
def Frac.norm (a : Frac) : Frac :=
  let s : Frac := if a.d < 0 then ⟨-a.n, -a.d⟩ else a
  let g : Int := Int.ofNat (Nat.gcd s.n.natAbs s.d.natAbs)
  if g = 0 then s else ⟨s.n / g, s.d / g⟩

/-- The fraction `k/1`. -/
def Frac.int (k : Int) : Frac := ⟨k, 1⟩

def Frac.add (a b : Frac) : Frac := Frac.norm ⟨a.n * b.d + b.n * a.d, a.d * b.d⟩

def Frac.neg (a : Frac) : Frac := ⟨-a.n, a.d⟩

def Frac.mul (a b : Frac) : Frac := Frac.norm ⟨a.n * b.n, a.d * b.d⟩

/-- Division (callers guard the zero-divisor case). -/
def Frac.fdiv (a b : Frac) : Frac := Frac.norm ⟨a.n * b.d, a.d * b.n⟩

/-- Strict positivity of the represented value. -/
def Frac.pos (a : Frac) : Bool := 0 < a.n * a.d

/-- Strict negativity of the represented value. -/
def Frac.negv (a : Frac) : Bool := a.n * a.d < 0

/-- The power `10^z` as a fraction, for scientific-notation exponents. -/
def Frac.pow10 (z : Int) : Frac :=
  if 0 ≤ z then ⟨(10 : Int) ^ z.toNat, 1⟩ else ⟨1, (10 : Int) ^ (-z).toNat⟩

/-- Embedding of the C `double` values produced by the evaluator: exact
fractions extended with the two infinities and NaN.  Signed zero is not
distinguished (the zero divisor is treated as `+0`). -/
inductive EDouble where
  | val (q : Frac)
  | posInf
  | negInf
  | nan
deriving DecidableEq

/-- The finite value `k`. -/
def EDouble.int (k : Int) : EDouble := EDouble.val (Frac.int k)

/-- IEEE-style negation. -/
def EDouble.neg : EDouble → EDouble
  | val q => val q.neg
  | posInf => negInf
  | negInf => posInf
  | nan => nan

/-- IEEE-style addition. -/
def EDouble.add : EDouble → EDouble → EDouble
  | val a, val b => val (a.add b)
  | nan, _ => nan
  | _, nan => nan
  | posInf, negInf => nan
  | negInf, posInf => nan
  | posInf, _ => posInf
  | _, posInf => posInf
  | negInf, _ => negInf
  | _, negInf => negInf

/-- IEEE-style subtraction. -/
def EDouble.sub (a b : EDouble) : EDouble := a.add b.neg

/-- IEEE-style multiplication (`inf * 0 = nan`). -/
def EDouble.mul : EDouble → EDouble → EDouble
  | val a, val b => val (a.mul b)
  | nan, _ => nan
  | _, nan => nan
  | posInf, posInf => posInf
  | posInf, negInf => negInf
  | negInf, posInf => negInf
  | negInf, negInf => posInf
  | posInf, val b => if b.pos then posInf else if b.negv then negInf else nan
  | val a, posInf => if a.pos then posInf else if a.negv then negInf else nan
  | negInf, val b => if b.pos then negInf else if b.negv then posInf else nan
  | val a, negInf => if a.pos then negInf else if a.negv then posInf else nan

/-- IEEE-style division: a nonzero finite value divided by zero is a
signed infinity, `0/0` is NaN. -/
def EDouble.div : EDouble → EDouble → EDouble
  | nan, _ => nan
  | _, nan => nan
  | val a, val b =>
    if b.n ≠ 0 then val (a.fdiv b)
    else if a.pos then posInf else if a.negv then negInf else nan
  | val _, posInf => val (Frac.int 0)
  | val _, negInf => val (Frac.int 0)
  | posInf, val _ => posInf
  | negInf, val _ => negInf
  | posInf, posInf => nan
  | posInf, negInf => nan
  | negInf, posInf => nan
  | negInf, negInf => nan

/-- Numeric value of a digit run. -/
def digitsVal (l : List Char) : Nat :=
  l.foldl (fun a c => 10 * a + (c.toNat - 48)) 0

/-- Consume one optional sign character, returning the sign factor and
the remainder (used for both the mantissa and the exponent of the
`strtod` model). -/
def signSplit (s : List Char) : Int × List Char :=
  if s.head? = some '+' then (1, s.drop 1)
  else if s.head? = some '-' then (-1, s.drop 1)
  else (1, s)

/-- Model of the C library `strtod` (called at src/main.cpp:729),
restricted to plain decimal literals: optional leading whitespace, an
optional sign, a digit string with optional fractional part (at least one
digit overall), and an optional well-formed exponent (backtracked when
malformed, as `strtod` does).  Returns `none` when no conversion is
performed (`end == nptr`), otherwise the exact value and the unconsumed
suffix.  The `inf`/`nan`/hex spellings accepted by some C libraries are
not modelled; no claim exercises them. -/
def strtodParse (s : List Char) : Option (Frac × List Char) :=
  let s0 := s.dropWhile isWhite
  let sp : Int × List Char := signSplit s0
  let ip := sp.2.takeWhile Char.isDigit
  let s2 := sp.2.dropWhile Char.isDigit
  let fp : List Char × List Char :=
    match s2 with
    | '.' :: r => (r.takeWhile Char.isDigit, r.dropWhile Char.isDigit)
    | _ => ([], s2)
  if ip.isEmpty && fp.1.isEmpty then none
  else
    let mant : Frac :=
      (Frac.int sp.1).mul (Frac.fdiv (Frac.int (digitsVal (ip ++ fp.1)))
        (Frac.int ((10 : Int) ^ fp.1.length)))
    match fp.2 with
    | e :: r =>
      if e = 'e' ∨ e = 'E' then
        let esp : Int × List Char := signSplit r
        let ed := esp.2.takeWhile Char.isDigit
        if ed.isEmpty then some (mant, fp.2)
        else some (mant.mul (Frac.pow10 (esp.1 * digitsVal ed)),
          esp.2.dropWhile Char.isDigit)
      else some (mant, fp.2)
    | [] => some (mant, [])

/-- The cursor position at which `parse_number` (src/main.cpp:716-733)
attempts a literal or parenthesis: after skipping whitespace, one
optional sign character, and whitespace again. -/
def numStart (s : List Char) : List Char :=
  let s1 := s.dropWhile isWhite
  let s2 : List Char :=
    match s1 with
    | '+' :: r => r
    | '-' :: r => r
    | _ => s1
  s2.dropWhile isWhite

/-- Sign consumed by `parse_number` before the literal or parenthesis. -/
def numSign (s : List Char) : Int :=
  match s.dropWhile isWhite with
  | '-' :: _ => -1
  | _ => 1

mutual

/-- Embeds `parse_number` (src/main.cpp:716-733).  The global cursor `expr_ptr`
becomes explicit state (the returned list); the fuel argument makes the
mutual recursion structural and is chosen large enough in `calc_eval`
never to run out. -/
def parse_number : Nat → List Char → EDouble × List Char
  | 0, s => (EDouble.int 0, s)
  | f + 1, s =>
    match numStart s with
    | '(' :: r =>
      let vr := parse_expression f r
      let r2 : List Char :=
        match vr.2 with
        | ')' :: t => t
        | _ => vr.2
      ((EDouble.int (numSign s)).mul vr.1, r2)
    | s3 =>
      match strtodParse s3 with
      | none => (EDouble.int 0, s3)
      | some (q, rest) => (EDouble.val ((Frac.int (numSign s)).mul q), rest)

/-- Embeds `parse_term` (src/main.cpp:734-743): a number followed by the
`*`/`/` loop. -/
def parse_term : Nat → List Char → EDouble × List Char
  | 0, s => (EDouble.int 0, s)
  | f + 1, s =>
    let vr := parse_number f s
    parse_term_loop f vr.1 vr.2

/-- The `while` loop of `parse_term` (src/main.cpp:736-741); on exit the
cursor rests after any skipped whitespace, as in the source. -/
def parse_term_loop : Nat → EDouble → List Char → EDouble × List Char
  | 0, v, s => (v, s)
  | f + 1, v, s =>
    match s.dropWhile isWhite with
    | '*' :: r =>
      let wr := parse_number f r
      parse_term_loop f (v.mul wr.1) wr.2
    | '/' :: r =>
      let wr := parse_number f r
      parse_term_loop f (v.div wr.1) wr.2
    | s1 => (v, s1)

/-- Embeds `parse_expression` (src/main.cpp:744-753): a term followed by the
`+`/`-` loop. -/
def parse_expression : Nat → List Char → EDouble × List Char
  | 0, s => (EDouble.int 0, s)
  | f + 1, s =>
    let vr := parse_term f s
    parse_expr_loop f vr.1 vr.2

/-- The `while` loop of `parse_expression` (src/main.cpp:746-751). -/
def parse_expr_loop : Nat → EDouble → List Char → EDouble × List Char
  | 0, v, s => (v, s)
  | f + 1, v, s =>
    match s.dropWhile isWhite with
    | '+' :: r =>
      let wr := parse_term f r
      parse_expr_loop f (v.add wr.1) wr.2
    | '-' :: r =>
      let wr := parse_term f r
      parse_expr_loop f (v.sub wr.1) wr.2
    | s1 => (v, s1)

end

/-- The value printed by `cmd_calc` (src/main.cpp:755-761): run
`parse_expression` on the expression argument with ample fuel. -/
def calc_eval (s : String) : EDouble :=
  (parse_expression (4 * s.length + 8) s.data).1

/-- Start offset of the follower (src/main.cpp:426-427): `0` unless the
file end is beyond 4096 bytes, in which case `end - 4096`. -/
def tailf_start (n : Nat) : Nat := if n > 4096 then n - 4096 else 0

/-- Lines produced by repeated `std::getline` over a byte list: split at
each newline; a final fragment is still yielded when non-empty (a
`getline` that reads characters and then hits end-of-file succeeds), while
reading zero characters at end-of-file fails and yields nothing. -/
def getLinesAux : List Char → List Char → List (List Char)
  | acc, [] => if acc.isEmpty then [] else [acc]
  | acc, c :: cs =>
    if c = NL then acc :: getLinesAux [] cs else getLinesAux (acc ++ [c]) cs

/-- All lines `getline` yields from a byte list before failing. -/
def getLines (l : List Char) : List (List Char) := getLinesAux [] l

/-- The polling loop of `cmd_tailf` (src/main.cpp:434-441), modelled over
a trace of append events: each event extends the file, after which the
follower drains every available line (leaving the stream cursor at the
new end of file, exactly as the repeated `getline`/`clear` cycle does).
Appends are taken to happen between polls; sub-poll interleaving is real
time and outside the embedding. -/
def tailf_polls : Nat → List Char → List (List Char) → List (List Char)
  | _, _, [] => []
  | pos, content, a :: rest =>
    getLines ((content ++ a).drop pos) ++
      tailf_polls (content ++ a).length (content ++ a) rest

/-- Everything `cmd_tailf` (src/main.cpp:415-443) emits on a file whose
initial content is `init`, over a trace of appends: the catch-up read
from the start offset, then the polling loop. -/
def tailf_emitted (init : List Char) (appends : List (List Char)) : List (List Char) :=
  getLines (init.drop (tailf_start init.length)) ++
    tailf_polls init.length init appends

/-- Join a token sequence with single spaces (the normalization that the
idempotence property of the spec talks about). -/
def joinSp : List (List Char) → List Char
  | [] => []
  | [t] => t
  | t :: ts => t ++ ' ' :: joinSp ts

theorem wordsAux_word (w : List Char) (hw : ∀ c ∈ w, isWhite c = false) :
    ∀ acc cs, wordsAux acc (w ++ cs) = wordsAux (acc ++ w) cs := by
  induction w with
  | nil => intro acc cs; simp
  | cons c w ih =>
    intro acc cs
    have hc : isWhite c = false := hw c (List.mem_cons_self c w)
    have hw' : ∀ d ∈ w, isWhite d = false := fun d hd => hw d (List.mem_cons_of_mem c hd)
    calc wordsAux acc (c :: w ++ cs)
        = wordsAux (acc ++ [c]) (w ++ cs) := by simp [wordsAux, hc]
      _ = wordsAux (acc ++ [c] ++ w) cs := ih hw' (acc ++ [c]) cs
      _ = wordsAux (acc ++ c :: w) cs := by simp

theorem wordsAux_allWhite (s : List Char) (hs : ∀ c ∈ s, isWhite c = true) :
    wordsAux [] s = [] := by
  induction s with
  | nil => rfl
  | cons c cs ih =>
    have hc : isWhite c = true := hs c (List.mem_cons_self c cs)
    simp [wordsAux, hc, ih fun d hd => hs d (List.mem_cons_of_mem c hd)]

theorem words_joinSp (ts : List (List Char))
    (h : ∀ t ∈ ts, t ≠ [] ∧ ∀ c ∈ t, isWhite c = false) :
    words (joinSp ts) = ts := by
  induction ts with
  | nil => rfl
  | cons t ts ih =>
    obtain ⟨ht, hw⟩ := h t (List.mem_cons_self t ts)
    cases ts with
    | nil =>
      show wordsAux [] (joinSp [t]) = [t]
      have : joinSp [t] = t ++ [] := by simp [joinSp]
      rw [this, wordsAux_word t hw [] []]
      simp [wordsAux, ht]
    | cons u us =>
      show wordsAux [] (joinSp (t :: u :: us)) = t :: u :: us
      have hj : joinSp (t :: u :: us) = t ++ ' ' :: joinSp (u :: us) := rfl
      rw [hj, wordsAux_word t hw [] (' ' :: joinSp (u :: us))]
      have hsp : isWhite ' ' = true := by decide
      simp only [wordsAux, hsp, if_true, List.nil_append,
        List.isEmpty_eq_true]
      rw [if_neg ht]
      exact congrArg (t :: ·) (ih fun v hv => h v (List.mem_cons_of_mem t hv))

theorem stripQuotes_of_head (t : List Char)
    (h1 : t.head? ≠ some DQ) (h2 : t.head? ≠ some SQ) : stripQuotes t = t := by
  cases t with
  | nil => rfl
  | cons c cs =>
    simp only [List.head?_cons, ne_eq, Option.some.injEq] at h1 h2
    cases hbl : (c :: cs).getLast? with
    | none => simp [stripQuotes, hbl]
    | some b =>
      simp [stripQuotes, hbl, h1, h2]

theorem isOpener_of_head (t : List Char)
    (h1 : t.head? ≠ some DQ) (h2 : t.head? ≠ some SQ) : isOpener t = false := by
  cases t with
  | nil => rfl
  | cons c cs =>
    simp only [List.head?_cons, ne_eq, Option.some.injEq] at h1 h2
    cases hbl : (c :: cs).getLast? with
    | none => simp [isOpener, hbl]
    | some b => simp [isOpener, hbl, h1, h2]

theorem scanTokens_unquoted (ts : List (List Char))
    (h : ∀ t ∈ ts, t.head? ≠ some DQ ∧ t.head? ≠ some SQ) :
    scanTokens none ts = ts := by
  induction ts with
  | nil => rfl
  | cons t ts ih =>
    obtain ⟨h1, h2⟩ := h t (List.mem_cons_self t ts)
    simp only [scanTokens, isOpener_of_head t h1 h2, Bool.false_eq_true,
      if_false, stripQuotes_of_head t h1 h2]
    exact congrArg (t :: ·) (ih fun u hu => h u (List.mem_cons_of_mem t hu))

theorem getLast_concat_eq (l : List Char) (x : Char) :
    (l ++ [x]).getLast? = some x := by
  induction l with
  | nil => rfl
  | cons c cs ih =>
    rw [List.cons_append]
    cases hcs : cs ++ [x] with
    | nil => exact absurd hcs (by simp)
    | cons d ds => rw [List.getLast?_cons_cons, ← hcs, ih]

theorem isEmpty_concat_false (l : List Char) (x : Char) :
    (l ++ [x]).isEmpty = false := by
  cases l <;> rfl

theorem stripQuotes_wrap (m : List Char) :
    stripQuotes (DQ :: (m ++ [DQ])) = m := by
  have hl : (DQ :: (m ++ [DQ])).getLast? = some DQ := by
    rw [← List.cons_append]
    exact getLast_concat_eq (DQ :: m) DQ
  simp only [stripQuotes, List.head?_cons, hl]
  rw [if_pos ?_]
  · show (m ++ [DQ]).dropLast = m
    exact List.dropLast_concat
  · simp

/-- The input line `ls -l "my dir"` of the spec's tokenizer example. -/
def myDirLine : String := ⟨['l', 's', ' ', '-', 'l', ' ', DQ, 'm', 'y', ' ', 'd', 'i', 'r', DQ]⟩

/-- C5: the tokenizer splits on whitespace runs; a token opened (but not
closed) by a quote absorbs following words, rejoined with single spaces,
until one ends with the matching quote; a completed token bounded by the
matching quote at both ends is stripped of exactly one quote per end; an
unterminated quote extends the token to the end of the line without
error; `ls -l "my dir"` yields `["ls", "-l", "my dir"]`; and
whitespace-only input yields the empty sequence. -/
theorem C5_tokenizer :
    split_args myDirLine = ["ls", "-l", "my dir"]
    ∧ (∀ s : List Char, (∀ c ∈ s, isWhite c = true) → splitArgsL s = [])
    ∧ (∀ a b : List Char, a ≠ [] → b ≠ [] →
        (∀ c ∈ a, isWhite c = false) → (∀ c ∈ b, isWhite c = false) →
        a.getLast? ≠ some DQ →
        splitArgsL (DQ :: a ++ ' ' :: b ++ [DQ]) = [a ++ ' ' :: b])
    ∧ splitArgsL (DQ :: "ab cd".data) = [DQ :: "ab cd".data] := by
  refine ⟨by decide, ?_, ?_, by decide⟩
  · intro s hs
    unfold splitArgsL words
    rw [wordsAux_allWhite s hs]
    rfl
  · intro a b ha hb hwa hwb hlast
    obtain ⟨a0, x, hax⟩ : ∃ a0 x, a = a0 ++ [x] := by
      rcases List.eq_nil_or_concat a with h | ⟨a0, x, h⟩
      · exact absurd h ha
      · exact ⟨a0, x, by rw [h, List.concat_eq_append]⟩
    have hxDQ : x ≠ DQ := fun hx => hlast (by rw [hax, getLast_concat_eq, hx])
    have hwDQa : ∀ c ∈ DQ :: a, isWhite c = false := by
      intro c hc
      rcases List.mem_cons.mp hc with h | h
      · subst h; decide
      · exact hwa c h
    have hwbDQ : ∀ c ∈ b ++ [DQ], isWhite c = false := by
      intro c hc
      rcases List.mem_append.mp hc with h | h
      · exact hwb c h
      · simp only [List.mem_singleton] at h
        subst h; decide
    have hwords : words (DQ :: a ++ ' ' :: b ++ [DQ]) = [DQ :: a, b ++ [DQ]] := by
      unfold words
      have h1 : DQ :: a ++ ' ' :: b ++ [DQ] = (DQ :: a) ++ (' ' :: (b ++ [DQ])) := by
        simp
      rw [h1, wordsAux_word (DQ :: a) hwDQa [] (' ' :: (b ++ [DQ]))]
      have hsp : isWhite ' ' = true := by decide
      simp only [wordsAux, hsp, if_true, List.nil_append]
      rw [if_neg (by simp)]
      have h3 := wordsAux_word (b ++ [DQ]) hwbDQ [] []
      simp only [List.append_nil, List.nil_append] at h3
      rw [h3]
      simp [wordsAux, isEmpty_concat_false]
    unfold splitArgsL
    rw [hwords]
    have hgl : (DQ :: a).getLast? = some x := by
      rw [hax, ← List.cons_append, getLast_concat_eq]
    have hopen : isOpener (DQ :: a) = true := by
      simp only [isOpener, List.head?_cons, hgl]
      simp [hxDQ]
    have hlastb : (b ++ [DQ]).getLast? = some DQ := getLast_concat_eq b DQ
    simp only [scanTokens, hopen, if_true, List.headD_cons, isEmpty_concat_false,
      Bool.not_false, hlastb, beq_self_eq_true, Bool.true_and, Bool.and_self, if_true]
    have hacc : (DQ :: a) ++ ' ' :: (b ++ [DQ]) = DQ :: ((a ++ ' ' :: b) ++ [DQ]) := by
      simp
    rw [hacc, stripQuotes_wrap]

/-- C5 witness: the universally quantified conjuncts applied at concrete
inputs (whitespace-only line; `"my dir"` absorption). -/
theorem C5_tokenizer_witness :
    splitArgsL [' ', TAB, ' '] = []
    ∧ splitArgsL (DQ :: 'm' :: 'y' :: ' ' :: 'd' :: 'i' :: 'r' :: [DQ]) =
        [['m', 'y', ' ', 'd', 'i', 'r']] :=
  ⟨C5_tokenizer.2.1 [' ', TAB, ' '] (by decide),
   C5_tokenizer.2.2.1 ['m', 'y'] ['d', 'i', 'r'] (by decide) (by decide)
     (by decide) (by decide) (by decide)⟩

/-- The token `a<TAB>b`: it contains no space and is unquoted, but does
contain whitespace. -/
def tabTok : List Char := ['a', TAB, 'b']

/-- C9 counterexample: the one-element token sequence `[a<TAB>b]`
contains no space in any token and no quoted token, yet tokenizing its
single-space join does not reproduce the sequence (the tokenizer splits
on every whitespace character, not just spaces). -/
theorem C9_counterexample :
    (' ' ∉ tabTok) ∧ tabTok.head? ≠ some DQ ∧ tabTok.head? ≠ some SQ
    ∧ splitArgsL (joinSp [tabTok]) ≠ [tabTok] := by decide

/-- C9 amended: tokenization is idempotent on sequences of non-empty
tokens that contain no whitespace character (space, tab, newline,
vertical tab, form feed, carriage return) and do not begin with a quote
character. -/
theorem C9_idempotent (ts : List (List Char))
    (h : ∀ t ∈ ts, t ≠ [] ∧ (∀ c ∈ t, isWhite c = false)
        ∧ t.head? ≠ some DQ ∧ t.head? ≠ some SQ) :
    splitArgsL (joinSp ts) = ts := by
  unfold splitArgsL
  rw [words_joinSp ts fun t ht => ⟨(h t ht).1, (h t ht).2.1⟩]
  exact scanTokens_unquoted ts fun t ht => (h t ht).2.2

/-- C9 witness: idempotence at the concrete sequence `[ls, -l]`. -/
theorem C9_idempotent_witness :
    splitArgsL (joinSp [['l', 's'], ['-', 'l']]) = [['l', 's'], ['-', 'l']] :=
  C9_idempotent [['l', 's'], ['-', 'l']] (by decide)

/-- C10: a line of exactly two identical quote characters tokenizes to
the one-element sequence containing the empty string (not the empty
sequence that whitespace-only input gives), so at dispatch the empty
string is the command name; it matches no built-in and the line falls
through to the external interpreter. -/
theorem C10_empty_quotes :
    split_args ⟨[SQ, SQ]⟩ = [""] ∧ split_args ⟨[DQ, DQ]⟩ = [""]
    ∧ (split_args ⟨[SQ, SQ]⟩).head? = some ""
    ∧ (repl_step ⟨[], []⟩ ⟨[SQ, SQ]⟩).action = some (ReplAction.external ⟨[SQ, SQ]⟩) := by
  decide

theorem substitute_aliases_none (table : List (String × String)) (line : String)
    (h : ∀ t, (split_args line).head? = some t → List.lookup t table = none) :
    substitute_aliases table line = line := by
  unfold substitute_aliases
  cases hs : split_args line with
  | nil => rfl
  | cons t rest =>
    have hl := h t (by rw [hs]; rfl)
    simp only [hl]

/-- The raw input line `alias ll='ls -l'`. -/
def aliasLLline : String :=
  ⟨['a', 'l', 'i', 'a', 's', ' ', 'l', 'l', '=', SQ, 'l', 's', ' ', '-', 'l', SQ]⟩

/-- The fresh-session state after executing `alias ll='ls -l'`. -/
def stAfterAliasLL : ShellState := (repl_step ⟨[], []⟩ aliasLLline).state

/-- C1 counterexample: after executing `alias ll='ls -l'`, the line
`ll /tmp` does not substitute to `ls -l /tmp` (the tokenizer splits the
definition into `ll='ls` and `-l'`, so the stored replacement is `'ls`). -/
theorem C1_counterexample :
    substitute_aliases stAfterAliasLL.aliases "ll /tmp" ≠ "ls -l /tmp" := by decide

/-- C1 amended: executing `alias ll='ls -l'` stores the alias
`ll -> 'ls`, so `ll /tmp` substitutes to `'ls /tmp`; and every line whose
first token is not a key of the alias table passes through substitution
unchanged. -/
theorem C1_alias_example :
    stAfterAliasLL.aliases = [("ll", ⟨[SQ, 'l', 's']⟩)]
    ∧ substitute_aliases stAfterAliasLL.aliases "ll /tmp" =
        ⟨SQ :: ['l', 's', ' ', '/', 't', 'm', 'p']⟩
    ∧ (∀ (table : List (String × String)) (line : String),
        (∀ t, (split_args line).head? = some t → List.lookup t table = none) →
        substitute_aliases table line = line) :=
  ⟨by decide, by decide, substitute_aliases_none⟩

/-- C1 witness: the pass-through conjunct at a concrete line with an
empty alias table. -/
theorem C1_alias_example_witness : substitute_aliases [] "pwd" = "pwd" :=
  C1_alias_example.2.2 [] "pwd" (fun _ _ => rfl)

/-- C2 counterexample: with alias `ll -> ls -l`, the line `ll  /tmp`
(two spaces) substitutes to `ls -l  /tmp` — the replacement keeps the
substring after the first space-or-tab character, not after the first
whitespace run, so the claimed result `ls -l /tmp` is wrong. -/
theorem C2_counterexample :
    substitute_aliases [("ll", "ls -l")] "ll  /tmp" = "ls -l  /tmp"
    ∧ substitute_aliases [("ll", "ls -l")] "ll  /tmp" ≠ "ls -l /tmp" := by decide

/-- C2 amended: when the first token is an alias key, the result is the
replacement text, and — when the line has a further token and contains a
space or tab at index `i` — a single space and the substring of the
original line strictly after index `i` (the first space-or-tab
character, not the first whitespace run); an absent key returns the line
unchanged; substitution is a single non-recursive pass (an alias whose
replacement names another alias is not expanded again). -/
theorem C2_substitution :
    (∀ (table : List (String × String)) (line : String) (t rep : String)
        (rest : List String),
        split_args line = t :: rest → List.lookup t table = some rep →
        (rest = [] → substitute_aliases table line = rep)
        ∧ (line.data.findIdx? (fun c => c == ' ' || c == TAB) = none →
            substitute_aliases table line = rep)
        ∧ (∀ i, rest ≠ [] →
            line.data.findIdx? (fun c => c == ' ' || c == TAB) = some i →
            (substitute_aliases table line).data =
              rep.data ++ (if (line.data.drop (i + 1)).isEmpty then []
                           else ' ' :: line.data.drop (i + 1))))
    ∧ (∀ (table : List (String × String)) (line : String),
        (∀ t, (split_args line).head? = some t → List.lookup t table = none) →
        substitute_aliases table line = line)
    ∧ substitute_aliases [("a", "b"), ("b", "c")] "a" = "b" := by
  refine ⟨?_, substitute_aliases_none, by decide⟩
  intro table line t rep rest hsplit hlookup
  unfold substitute_aliases
  rw [hsplit]
  simp only [hlookup]
  refine ⟨?_, ?_, ?_⟩
  · intro hrest
    subst hrest
    simp
  · intro hfind
    simp only [hfind]
    by_cases hrest : rest.isEmpty <;> simp [hrest]
  · intro i hrest hfind
    simp only [hfind]
    have hre : rest.isEmpty = false := by
      cases rest with
      | nil => exact absurd rfl hrest
      | cons u us => rfl
    simp [hre]

/-- C2 witness: the characterization applied to the concrete alias
`ll -> ls -l` and line `ll /tmp` (space at index 2). -/
theorem C2_substitution_witness :
    (substitute_aliases [("ll", "ls -l")] "ll /tmp").data =
      "ls -l".data ++ (if ("ll /tmp".data.drop (2 + 1)).isEmpty then []
                       else ' ' :: "ll /tmp".data.drop (2 + 1)) :=
  (C2_substitution.1 [("ll", "ls -l")] "ll /tmp" "ll" "ls -l" ["/tmp"]
    (by decide) (by decide)).2.2 2 (by decide) (by decide)

/-- The fresh-session state after executing `echo a` then `echo b`. -/
def stEchoAB : ShellState := (repl_run ⟨[], []⟩ ["echo a", "echo b"]).1

/-- C3 counterexample: in a fresh session, after `echo a` and `echo b`,
the `history` command does not print just the two entries — the
`history` line itself was appended to the log before dispatch, so a
third line `3  history` is printed as well. -/
theorem C3_counterexample :
    (repl_step stEchoAB "history").out ≠ ["1  echo a", "2  echo b"] := by decide

/-- C3 amended: after `echo a` and `echo b`, `history` prints
`1  echo a`, `2  echo b`, `3  history` (the command lists itself, since
every line is pushed to the log before dispatch); `history -c` clears
the log (printing `history cleared`), and a subsequent `history` prints
exactly `1  history`, not nothing. -/
theorem C3_history :
    stEchoAB.history = ["echo a", "echo b"]
    ∧ (repl_step stEchoAB "history").out = ["1  echo a", "2  echo b", "3  history"]
    ∧ (repl_step stEchoAB "history -c").state.history = []
    ∧ (repl_step stEchoAB "history -c").out = ["history cleared"]
    ∧ (repl_step (repl_step stEchoAB "history -c").state "history").out = ["1  history"] := by
  decide

/-- C4 counterexample: the line of three spaces is non-empty and
tokenizes to the empty sequence, yet it is appended to the history log
(the push at src/main.cpp:897 happens before the empty-token check at
src/main.cpp:899-900). -/
theorem C4_counterexample :
    ("   " : String) ≠ "" ∧ split_args "   " = []
    ∧ (repl_step ⟨[], []⟩ "   ").state.history = ["   "] := by decide

/-- Does an argument list invoke the history clear (`history -c`)? -/
def isHistClearArgs : List String → Bool
  | c :: f :: _ => c == "history" && f == "-c"
  | _ => false

theorem dispatch_history_effect (st : ShellState) (args : List String) :
    (dispatch st args).1.history = if isHistClearArgs args then [] else st.history := by
  match args with
  | [] => rfl
  | [c] =>
    show (dispatch st [c]).1.history = if isHistClearArgs [c] then [] else st.history
    simp only [isHistClearArgs, Bool.false_eq_true, if_false]
    simp only [dispatch, cmd_history, cmd_alias, cmd_unalias]
    split_ifs <;> rfl
  | c :: f :: rest =>
    show (dispatch st (c :: f :: rest)).1.history =
      if isHistClearArgs (c :: f :: rest) then [] else st.history
    by_cases hc : c = "history"
    · subst hc
      by_cases hf : f = "-c"
      · subst hf
        simp [dispatch, cmd_history, isHistClearArgs]
      · simp [dispatch, cmd_history, isHistClearArgs, hf]
    · have hR : isHistClearArgs (c :: f :: rest) = false := by
        simp [isHistClearArgs, hc]
      rw [hR]
      simp only [Bool.false_eq_true, if_false]
      simp only [dispatch]
      split_ifs with h1 h2 h3 h4
      · rfl
      · rfl
      · simp only [cmd_alias]
        cases hfi : f.data.findIdx? (fun ch => ch == '=') <;> simp [hfi]
      · simp only [cmd_unalias]
        cases hlk : st.aliases.lookup f <;> simp [hlk]
      · rfl

/-- C4 amended: every non-empty input line appends exactly one entry to
the history log — the post-substitution line — before dispatch; this
includes lines that tokenize to the empty sequence (contrary to the
claim).  The only exception to the net effect is the `history -c`
command itself, which clears the log it was just appended to. -/
theorem C4_history_append (st : ShellState) (line : String) (h : line ≠ "") :
    (repl_step st line).state.history =
      if isHistClearArgs (split_args (substitute_aliases st.aliases line)) then []
      else st.history ++ [substitute_aliases st.aliases line] := by
  simp only [repl_step, if_neg h]
  cases hs : split_args (substitute_aliases st.aliases line) with
  | nil => simp [isHistClearArgs]
  | cons cmd rest =>
    simp only [dispatch_history_effect]

/-- C4 witness: the append equation at a fresh state and the line
`echo a`. -/
theorem C4_history_append_witness :
    ("echo a" : String) ≠ ""
    ∧ (repl_step ⟨[], []⟩ "echo a").state.history =
        (if isHistClearArgs (split_args (substitute_aliases [] "echo a")) then []
         else [] ++ [substitute_aliases [] "echo a"]) :=
  ⟨by decide, C4_history_append ⟨[], []⟩ "echo a" (by decide)⟩

/-- C6: the evaluator computes with left-to-right associativity and
multiplication/division binding tighter than addition/subtraction:
`2 + 3 * 4` is `14`, `(2 + 3) * 4` is `20`, `-5 + 2` is `-3`, and
`1 / 0` is the positive infinite value, not an error; additionally
`2 - 3 - 4` is `-5` (left associativity) and `2 + 8 / 4` is `4`
(precedence). -/
theorem C6_calc :
    calc_eval "2 + 3 * 4" = EDouble.int 14
    ∧ calc_eval "(2 + 3) * 4" = EDouble.int 20
    ∧ calc_eval "-5 + 2" = EDouble.int (-3)
    ∧ calc_eval "1 / 0" = EDouble.posInf
    ∧ calc_eval "2 - 3 - 4" = EDouble.int (-5)
    ∧ calc_eval "2 + 8 / 4" = EDouble.int 4 := by
  refine ⟨by decide, by decide, by decide, by decide, by decide, by decide⟩

theorem parse_number_malformed (f : Nat) (s : List Char)
    (h1 : (numStart s).head? ≠ some '(')
    (h2 : strtodParse (numStart s) = none) :
    parse_number (f + 1) s = (EDouble.int 0, numStart s) := by
  cases hns : numStart s with
  | nil =>
    have h2' := h2
    rw [hns] at h2'
    simp only [parse_number, hns, h2']
  | cons c r =>
    have hc : c ≠ '(' := by
      intro hcc
      exact h1 (by rw [hns, hcc]; rfl)
    have h2' := h2
    rw [hns] at h2'
    simp only [parse_number, hns]
    split
    · rename_i r' heq
      cases heq
      exact absurd rfl hc
    · simp only [h2']

theorem div_by_zero_not_finite (a : EDouble) (q : Frac) (hq : q.n = 0) :
    a.div (EDouble.val q) = EDouble.posInf ∨ a.div (EDouble.val q) = EDouble.negInf
    ∨ a.div (EDouble.val q) = EDouble.nan := by
  cases a with
  | val av =>
    simp only [EDouble.div]
    rw [if_neg (by simp [hq])]
    split_ifs <;> tauto
  | posInf => exact Or.inl rfl
  | negInf => exact Or.inr (Or.inl rfl)
  | nan => exact Or.inr (Or.inr rfl)

/-- C7: a malformed literal (no digits where a number was expected, and
no opening parenthesis) evaluates to `0` and leaves the cursor at that
same failing position (whitespace and one sign character before it are
still consumed); division by a value equal to zero yields an infinite or
NaN value; and neither case raises an error or aborts evaluation —
`2 + x` evaluates to `2` and `1 / (3 - 3)` to positive infinity. -/
theorem C7_degenerate :
    (∀ (f : Nat) (s : List Char),
        (numStart s).head? ≠ some '(' → strtodParse (numStart s) = none →
        parse_number (f + 1) s = (EDouble.int 0, numStart s))
    ∧ (∀ (a : EDouble) (q : Frac), q.n = 0 →
        a.div (EDouble.val q) = EDouble.posInf
        ∨ a.div (EDouble.val q) = EDouble.negInf
        ∨ a.div (EDouble.val q) = EDouble.nan)
    ∧ calc_eval "2 + x" = EDouble.int 2
    ∧ calc_eval "1 / (3 - 3)" = EDouble.posInf :=
  ⟨parse_number_malformed, div_by_zero_not_finite, by decide, by decide⟩

/-- C7 witness: the malformed-literal equation at input `x`, and the
division rule at `1 / 0`. -/
theorem C7_degenerate_witness :
    parse_number (0 + 1) ['x'] = (EDouble.int 0, numStart ['x'])
    ∧ ((EDouble.int 1).div (EDouble.val ⟨0, 1⟩) = EDouble.posInf
       ∨ (EDouble.int 1).div (EDouble.val ⟨0, 1⟩) = EDouble.negInf
       ∨ (EDouble.int 1).div (EDouble.val ⟨0, 1⟩) = EDouble.nan) :=
  ⟨C7_degenerate.1 0 ['x'] (by decide) (by decide),
   C7_degenerate.2.1 (EDouble.int 1) ⟨0, 1⟩ rfl⟩

theorem drop_len_append (l₁ l₂ : List Char) : (l₁ ++ l₂).drop l₁.length = l₂ := by
  induction l₁ with
  | nil => rfl
  | cons c cs ih =>
    simp only [List.cons_append, List.length_cons, List.drop_succ_cons]
    exact ih

theorem getLinesAux_word (w : List Char) (hw : NL ∉ w) :
    ∀ acc cs, getLinesAux acc (w ++ cs) = getLinesAux (acc ++ w) cs := by
  induction w with
  | nil => intro acc cs; simp
  | cons c w ih =>
    intro acc cs
    have hc : c ≠ NL := fun h => hw (by rw [h]; exact List.mem_cons_self NL w)
    have hw' : NL ∉ w := fun h => hw (List.mem_cons_of_mem c h)
    calc getLinesAux acc (c :: w ++ cs)
        = getLinesAux (acc ++ [c]) (w ++ cs) := by
          simp [getLinesAux, hc]
      _ = getLinesAux (acc ++ [c] ++ w) cs := ih hw' (acc ++ [c]) cs
      _ = getLinesAux (acc ++ c :: w) cs := by simp

theorem getLines_single (l : List Char) (hl : NL ∉ l) :
    getLines (l ++ [NL]) = [l] := by
  unfold getLines
  rw [getLinesAux_word l hl [] [NL]]
  simp [getLinesAux]

theorem tailf_polls_lines (lines : List (List Char)) (h : ∀ l ∈ lines, NL ∉ l) :
    ∀ content : List Char,
      tailf_polls content.length content (lines.map (fun l => l ++ [NL])) = lines := by
  induction lines with
  | nil => intro content; rfl
  | cons l rest ih =>
    intro content
    simp only [List.map_cons, tailf_polls]
    rw [drop_len_append, getLines_single l (h l (List.mem_cons_self l rest))]
    rw [ih (fun u hu => h u (List.mem_cons_of_mem l hu)) (content ++ (l ++ [NL]))]
    rfl

/-- C8: the follower's start offset is `max(0, end - 4096)`; on a file
with initial content `init`, followed by a trace of whole-line appends,
it emits the catch-up lines (from the start offset to the end of the
initial content, in order) and then each appended line exactly once, in
append order — nothing duplicated and nothing skipped, including across
the catch-up/follow boundary. -/
theorem C8_follower :
    (∀ n : Nat, (tailf_start n : ℤ) = max 0 ((n : ℤ) - 4096))
    ∧ (∀ (init : List Char) (lines : List (List Char)),
        (∀ l ∈ lines, NL ∉ l) →
        tailf_emitted init (lines.map (fun l => l ++ [NL])) =
          getLines (init.drop (tailf_start init.length)) ++ lines) := by
  constructor
  · intro n
    unfold tailf_start
    split <;> push_cast <;> omega
  · intro init lines h
    unfold tailf_emitted
    rw [tailf_polls_lines lines h init]

/-- C8 witness: the offset formula at 5000 bytes, and a follow of the
file `A\nB\n` with appended line `C`. -/
theorem C8_follower_witness :
    (tailf_start 5000 : ℤ) = max 0 ((5000 : ℤ) - 4096)
    ∧ tailf_emitted ['A', NL, 'B', NL] ([['C']].map (fun l => l ++ [NL])) =
        getLines ((['A', NL, 'B', NL] : List Char).drop (tailf_start 4)) ++ [['C']] :=
  ⟨C8_follower.1 5000, C8_follower.2 ['A', NL, 'B', NL] [['C']] (by decide)⟩
